import Mathlib

/-!
Verification of the kargo warehouse discovery/selection engine
(`internal/image/newest_build_selector.go` and the warehouses git
discovery code) against its natural-language specification.

Pure Go functions are embedded as Lean functions.  External
collaborators (the registry client, the git repository handle, the
`regexp` package) are embedded as explicit function parameters
("oracles"); Go standard-library helpers used by the code
(`filepath.Match`, `filepath.Rel`, `filepath.Clean`) and the
Masterminds semver library are given executable Lean models.
Concurrency in `getImagesByTags` is modelled by quantifying over the
goroutine completion order and over the point, if any, at which the
fail-fast cancellation makes a spawn-loop semaphore acquisition fail.  Machine integers do not overflow in any
of the modelled code paths (they are lengths and loop counters), so
`Nat` is used directly.  Timestamps (`time.Time`) are modelled as
`Int` instants; Go string comparison is byte-wise and UTF-8 byte order
agrees with code-point order, so Lean `String` order coincides with
Go's.
-/

namespace Kargo

/-- Modelled from the spec: the `Image` record of the data model
(`Tag`, `Digest`, `CreatedAt` timestamp-or-absent, optional platform);
the struct itself is declared outside the provided source file.
`CreatedAt` is a nullable pointer in Go, hence `Option Int`. -/
structure Image where
  tag : String
  digest : String
  createdAt : Option Int
  platform : Option String
deriving DecidableEq

/-- Modelled from the spec: the `platformConstraint` (an OS/architecture
pair) that an image manifest must match; declared outside the provided
source file and treated opaquely by the selector code. -/
structure PlatformConstraint where
  os : String
  arch : String
deriving DecidableEq

/-- Modelled from the spec: `git.TagMetadata` (a git tag plus the
commit it points to); declared outside the provided source file. -/
structure TagMetadata where
  tag : String
  commitID : String
  subject : String
  author : String
  committer : String
  creatorDate : Int
deriving DecidableEq

/-- Modelled from the spec: `git.CommitMetadata` (one commit in branch
history); declared outside the provided source file. -/
structure CommitMetadata where
  id : String
  subject : String
  author : String
  committer : String
  commitDate : Int
deriving DecidableEq

/-- Modelled from the spec: the `trimSlice` helper used by the git
discovery code (not present in the provided source file): it truncates
a slice to at most the given limit, "returning exactly that many" when
more have accumulated. -/
def trimSlice {α : Type} (l : List α) (limit : Nat) : List α :=
  l.take limit

/-! ### getImagesByTags (bounded concurrent fetch, fan-out/fan-in)

Embedding of `newestBuildSelector.getImagesByTags` (lines 166-234).
The Go function spawns one goroutine per tag, in tag-list order, after
acquiring a permit of the shared semaphore `metaSem` with the
cancellable batch context.  Each goroutine either sends its fetched
image on a buffered result channel, or races to place its error in a
one-slot error channel — later errors hit the channel's `default`
branch and are dropped — and cancels the batch context.  After the
join barrier the function returns the lone recorded error, and
otherwise the collected images.

Two scheduler-dependent quantities are observable and are passed as
explicit parameters, quantified in the theorems:
* `sched`, the order in which the goroutines report (the completion
  order);
* `interruptedAt`, the spawn-loop iteration (if any) whose
  `metaSem.Acquire(ctx, 1)` fails because the batch context was
  already cancelled by an earlier goroutine's error (lines 183-189):
  the function then returns the wrapped acquisition error — the
  context's `context canceled` — immediately, *dropping* the fetch
  error sitting in the error channel.

`ScheduleValid` ties the two to schedules the program can exhibit
(external cancellation of the whole discovery call is out of scope):
an interruption at `k` requires a fetch error among the goroutines
spawned before `k`, since only such an error cancels the batch
context. -/

/-- The join-and-drain phase of `getImagesByTags` (lines 214-233),
over the goroutine completion order `sched`: if the one-slot error
channel holds an error — the error of the first goroutine to report,
all later errors having been dropped — return it; otherwise unpack
the image channel in completion order, silently dropping nil images
("this shouldn't happen"). -/
def collectImages
    (fetch : String → Except String (Option Image)) :
    List String → Except String (List Image)
  | [] => Except.ok []
  | tag :: rest =>
    match fetch tag with
    | Except.error e => Except.error e
    | Except.ok none =>
      -- "This shouldn't happen": a nil image is silently dropped.
      collectImages fetch rest
    | Except.ok (some image) =>
      match collectImages fetch rest with
      | Except.error e => Except.error e
      | Except.ok images => Except.ok (image :: images)

/-- Validity of a schedule of `getImagesByTags`, absent external
cancellation: without interruption, the completion order is a
permutation of the tag list; an interruption of the spawn loop at
index `k` requires a fetch error among the tags spawned before `k`
(only a goroutine's fetch error cancels the batch context, making the
`k`-th `metaSem.Acquire` fail).  An interrupted call returns before
the join barrier, so its completion order is unconstrained. -/
def ScheduleValid (fetch : String → Except String (Option Image))
    (tags : List String) (interruptedAt : Option Nat)
    (sched : List String) : Prop :=
  match interruptedAt with
  | none => sched.Perm tags
  | some k => k < tags.length ∧
      ∃ j t e, j < k ∧ tags.get? j = some t ∧ fetch t = Except.error e

/-- Embedding of `getImagesByTags` over an explicit schedule: an
interrupted spawn loop returns the wrapped semaphore-acquisition error
for the tag it was about to spawn (lines 183-189), without consulting
the error channel; otherwise the join-and-drain phase runs over the
completion order. -/
def getImagesByTags (fetch : String → Except String (Option Image))
    (tags : List String) (interruptedAt : Option Nat)
    (sched : List String) : Except String (List Image) :=
  match interruptedAt with
  | some k =>
    Except.error ("error acquiring semaphore for retrieval of image with tag "
      ++ tags.getD k "" ++ ": context canceled")
  | none => collectImages fetch sched

/-! ### sortImagesByDate -/

/-- Go compares strings byte-wise; UTF-8 byte order coincides with
code-point order, so the lexicographic order on `String.data`
(`List Char`) is the Go string order.  (`List Char` rather than
`String` is used because its order relation is kernel-computable.) -/
def strLt (a b : String) : Prop :=
  a.data < b.data

instance : DecidableRel strLt := fun a b => by
  unfold strLt; infer_instance

/-- The body of the comparison closure passed to `sort.Slice` in
`sortImagesByDate`, exactly as written in Go: it calls
`images[i].CreatedAt.Equal(*images[j].CreatedAt)` and
`images[i].CreatedAt.After(*images[j].CreatedAt)`, both of which
dereference the `CreatedAt` pointers unconditionally.  A `none`
timestamp on either side therefore leaves the comparison undefined
(`Option.none` models the nil-pointer panic). -/
def imageLessGo (a b : Image) : Option Bool :=
  match a.createdAt, b.createdAt with
  | some ta, some tb =>
    some (if ta = tb then decide (strLt b.tag a.tag) else decide (tb < ta))
  | _, _ => none

/-- Timestamp of an image, defaulting the absent case.  On lists where
every timestamp is present (the only lists `sortImagesByDate` is
defined on, see `imageLessGo`) the default is never consulted. -/
def imageTime (i : Image) : Int :=
  i.createdAt.getD 0

/-- Total version of the `sort.Slice` comparator: `a` sorts strictly
before `b` iff `a`'s timestamp is later, or the timestamps are equal
and `a`'s tag is lexically greater.  Agrees with `imageLessGo`
whenever both timestamps are present. -/
def imageLess (a b : Image) : Bool :=
  if imageTime a = imageTime b then decide (strLt b.tag a.tag)
  else decide (imageTime b < imageTime a)

/-- The ordering a slice sorted by `sort.Slice less` satisfies: `a` may
appear before `b` iff `b` is not strictly before `a`. -/
def imagePrecedes (a b : Image) : Prop :=
  imageLess b a = false

instance : DecidableRel imagePrecedes := fun a b => by
  unfold imagePrecedes; infer_instance

/-- Sort key of the comparator: (timestamp, tag), compared
lexicographically, descending. -/
def imageKey (i : Image) : Int ×ₗ List Char :=
  toLex (imageTime i, i.tag.data)

/-- Embedding of `sortImagesByDate`: sorts the provided images in
chronologically descending order, breaking ties lexically by tag.
Go's `sort.Slice` produces *some* permutation ordered by the
comparator; we realise it with insertion sort, which produces such a
permutation. -/
def sortImagesByDate (images : List Image) : List Image :=
  images.insertionSort imagePrecedes

/-! ### newestBuildSelector.Select (lines 44-116)

`Select` first computes `selectImages` (tag listing, filtering,
concurrent fetch, date sort); the code from line 61 on operates on the
resulting date-sorted candidate list only.  `selectFromImages` embeds
exactly that part, taking the candidate list as input together with an
oracle for the registry client's `getImageByDigest`. -/

/-- The limit actually applied by `Select`:
`limit := n.discoveryLimit; if limit == 0 || limit > len(images) { limit = len(images) }`. -/
def effectiveLimit (discoveryLimit n : Nat) : Nat :=
  if discoveryLimit = 0 ∨ n < discoveryLimit then n else discoveryLimit

/-- The platform-constrained loop of `Select` (lines 81-107): walk the
whole sorted candidate list, re-resolve each candidate by digest with
the platform filter (oracle `g`), skip candidates whose filtered
resolution yields no match, overwrite the re-fetched image's tag with
the tag from the original listing, and stop once `limit` matches are
accumulated. -/
def selectPlatformLoop (g : String → Except String (Option Image)) (limit : Nat) :
    List Image → List Image → Except String (List Image)
  | acc, [] => Except.ok acc
  | acc, image :: rest =>
    if limit ≤ acc.length then Except.ok acc
    else
      match g image.digest with
      | Except.error e =>
        Except.error ("error retrieving image with digest " ++ image.digest ++ ": " ++ e)
      | Except.ok none => selectPlatformLoop g limit acc rest
      | Except.ok (some discoveredImage) =>
        selectPlatformLoop g limit
          (acc ++ [{ discoveredImage with tag := image.tag }]) rest

/-- Embedding of `Select` from line 56 on, given the date-sorted
candidate list `images` produced by `selectImages` (an error or empty
result from `selectImages` yields an empty return, line 57-59). -/
def selectFromImages
    (g : String → Option PlatformConstraint → Except String (Option Image))
    (platform : Option PlatformConstraint) (discoveryLimit : Nat)
    (images : List Image) : Except String (List Image) :=
  if images.isEmpty then Except.ok []
  else
    let limit := effectiveLimit discoveryLimit images.length
    match platform with
    | none => Except.ok (images.take limit)
    | some p => selectPlatformLoop (fun d => g d (some p)) limit [] images

/-- Concrete date-sorted candidate list for the C1 scenario: five
candidates, timestamps descending. -/
def c1Images : List Image :=
  [⟨"t1", "d1", some 50, none⟩, ⟨"t2", "d2", some 40, none⟩,
   ⟨"t3", "d3", some 30, none⟩, ⟨"t4", "d4", some 20, none⟩,
   ⟨"t5", "d5", some 10, none⟩]

/-- Concrete platform-filtered digest resolution for the C1 scenario:
only the 3rd and 5th candidates match the platform; the re-fetched
images carry registry-side tags (later overwritten by `Select`). -/
def c1Fetch : String → Option Image :=
  fun d =>
    if d = "d3" then some ⟨"r3", "d3", some 30, some ("linux/amd64")⟩
    else if d = "d5" then some ⟨"r5", "d5", some 10, some ("linux/amd64")⟩
    else none

/-! ### Models of Go standard-library path helpers

The warehouses code uses `filepath.Clean`/`filepath.Rel` (via the
default path selector) and `filepath.Match` (via the `glob:` path
selector).  These run on Linux, so the separator is `/` and there are
no volume names.  Strings are processed as `List Char`
(= `String.data`), which is kernel-computable; Go's byte-wise
processing agrees with this on UTF-8 input. -/

/-- Split a character list on `/`, keeping empty segments (the
behaviour of `strings.Split(s, "/")`). -/
def splitOnSlash : List Char → List (List Char)
  | [] => [[]]
  | c :: rest =>
    if c = '/' then [] :: splitOnSlash rest
    else
      match splitOnSlash rest with
      | [] => [[c]]
      | seg :: segs => (c :: seg) :: segs

/-- Join segments with `/`. -/
def joinSlash : List (List Char) → List Char
  | [] => []
  | [seg] => seg
  | seg :: rest => seg ++ '/' :: joinSlash rest

/-- The segment-stack loop of `filepath.Clean` (Unix): empty and `.`
segments are dropped; `..` pops a normal segment, is dropped at the
root of a rooted path, and is kept when there is nothing to pop in a
relative path; other segments are pushed.  `out` is kept reversed. -/
def cleanLoop (rooted : Bool) : List (List Char) → List (List Char) → List (List Char)
  | out, [] => out
  | out, seg :: rest =>
    if seg = [] ∨ seg = ['.'] then cleanLoop rooted out rest
    else if seg = ['.', '.'] then
      match out with
      | [] =>
        if rooted then cleanLoop rooted [] rest
        else cleanLoop rooted [['.', '.']] rest
      | top :: outRest =>
        if top = ['.', '.'] then cleanLoop rooted (seg :: top :: outRest) rest
        else cleanLoop rooted outRest rest
    else cleanLoop rooted (seg :: out) rest

/-- Model of `filepath.Clean` for Unix paths. -/
def goClean (path : String) : String :=
  if path.data = [] then (".")
  else
    let rooted := path.data.head? = some '/'
    let out := (cleanLoop rooted [] (splitOnSlash path.data)).reverse
    if out = [] then (if rooted then ("/") else ("."))
    else String.mk ((if rooted then ['/'] else []) ++ joinSlash out)

/-- Segment list of a cleaned path for `goRel`: the root marker is
stripped, and an empty path has no segments (`base == "."` has already
been replaced by the empty string, mirroring the Go code). -/
def relSegs (s : String) : List (List Char) :=
  let l := if s.data.head? = some '/' then s.data.tail else s.data
  if l = [] then [] else splitOnSlash l

/-- Drop the common leading segments of two segment lists, returning
both remainders (the element-wise scan of `filepath.Rel`). -/
def dropCommonPrefix : List (List Char) → List (List Char) →
    (List (List Char) × List (List Char))
  | b :: bs, t :: ts =>
    if b = t then dropCommonPrefix bs ts else (b :: bs, t :: ts)
  | bs, ts => (bs, ts)

/-- Model of `filepath.Rel` for Unix paths: clean both paths, require
the same rootedness, drop the common leading segments; if the base
remainder starts with `..` the result is an error, otherwise the
result climbs with one `..` per remaining base segment and descends
into the target remainder. -/
def goRel (basepath targpath : String) : Except String String :=
  let base := goClean basepath
  let targ := goClean targpath
  if targ.data = base.data then Except.ok (".")
  else
    let base1 := if base.data = ['.'] then ("") else base
    let baseRooted := base1.data.head? = some '/'
    let targRooted := targ.data.head? = some '/'
    if baseRooted ≠ targRooted then
      Except.error ("Rel: cannot make " ++ targpath ++ " relative to " ++ basepath)
    else
      match dropCommonPrefix (relSegs base1) (relSegs targ) with
      | (brem, trem) =>
        if brem.head? = some ['.', '.'] then
          Except.error ("Rel: cannot make " ++ targpath ++ " relative to " ++ basepath)
        else if brem = [] then Except.ok (String.mk (joinSlash trem))
        else Except.ok (String.mk
          (joinSlash (List.replicate brem.length ['.', '.'] ++ trem)))

/-- Model of `strings.Contains(s, "..")`, the test applied by the
default path selector to the output of `filepath.Rel`. -/
def hasDotDot (s : String) : Bool :=
  decide (['.', '.'] <:+: s.data)

/-! ### Model of `filepath.Match` (Unix) -/

/-- Model of `getEsc` from `path/filepath/match.go`: read one
character-range endpoint of a character class, handling `\`-escapes;
`-`, `]`, a trailing escape, or running out of characters before the
closing `]` are `ErrBadPattern`. -/
def getEsc : List Char → Except String (Char × List Char)
  | [] => Except.error ("syntax error in pattern")
  | c :: rest =>
    if c = '-' ∨ c = ']' then Except.error ("syntax error in pattern")
    else if c = '\\' then
      match rest with
      | [] => Except.error ("syntax error in pattern")
      | c2 :: rest2 =>
        if rest2 = [] then Except.error ("syntax error in pattern")
        else Except.ok (c2, rest2)
    else if rest = [] then Except.error ("syntax error in pattern")
    else Except.ok (c, rest)

/-- Scan the ranges of a character class (after `[` and an optional
`^`) against character `r`, returning whether any range matched and
the pattern remainder after the closing `]`.  `fuel` bounds the scan;
each step consumes at least one pattern character, so a fuel of the
pattern length plus one is always sufficient. -/
def classScan (fuel : Nat) (r : Char) (matched : Bool) (nrange : Nat)
    (chunk : List Char) : Except String (Bool × List Char) :=
  match fuel with
  | 0 => Except.error ("glob: fuel exhausted")
  | fuel' + 1 =>
    match chunk with
    | ']' :: rest =>
      if 0 < nrange then Except.ok (matched, rest)
      else Except.error ("syntax error in pattern")
    | chunk =>
      match getEsc chunk with
      | Except.error e => Except.error e
      | Except.ok (lo, chunk1) =>
        match
          (match chunk1 with
           | '-' :: chunk1' => getEsc chunk1'
           | _ => Except.ok (lo, chunk1)) with
        | Except.error e => Except.error e
        | Except.ok (hi, chunk2) =>
          classScan fuel' r (matched || (lo ≤ r && r ≤ hi)) (nrange + 1) chunk2

/-- Strip an optional leading `^` (class negation) from a character
class body. -/
def classHead : List Char → (Bool × List Char)
  | '^' :: rest => (true, rest)
  | rest => (false, rest)

/-- Model of `filepath.Match` (Unix) on character lists: `*` matches
any run of non-separator characters, `?` one non-separator character,
`[...]` a character class, `\` escapes, other characters match
themselves; a malformed class or trailing escape is `ErrBadPattern`.
`fuel` bounds the recursion; every step shrinks pattern + name, so a
fuel of their combined length plus one is always sufficient.  (The Go
implementation additionally scans the untaken remainder of a pattern
for syntax errors before returning a non-match; this model reports
errors only on the scanned part, which agrees with Go on well-formed
patterns.) -/
def globMatch (fuel : Nat) (pattern name : List Char) : Except String Bool :=
  match fuel with
  | 0 => Except.error ("glob: fuel exhausted")
  | fuel' + 1 =>
    match pattern, name with
    | [], [] => Except.ok true
    | [], _ :: _ => Except.ok false
    | '*' :: prest, nm =>
      match globMatch fuel' prest nm with
      | Except.error e => Except.error e
      | Except.ok true => Except.ok true
      | Except.ok false =>
        match nm with
        | [] => Except.ok false
        | c :: nrest =>
          if c = '/' then Except.ok false
          else globMatch fuel' ('*' :: prest) nrest
    | '?' :: _, [] => Except.ok false
    | '?' :: prest, c :: nrest =>
      if c = '/' then Except.ok false else globMatch fuel' prest nrest
    | '[' :: prest, [] =>
      match classScan ((classHead prest).2.length + 1) 'a' false 0
          (classHead prest).2 with
      | Except.error e => Except.error e
      | Except.ok _ => Except.ok false
    | '[' :: prest, c :: nrest =>
      match classScan ((classHead prest).2.length + 1) c false 0
          (classHead prest).2 with
      | Except.error e => Except.error e
      | Except.ok (matched, prest2) =>
        if matched = (classHead prest).1 then Except.ok false
        else globMatch fuel' prest2 nrest
    | '\\' :: [], _ => Except.error ("syntax error in pattern")
    | '\\' :: _ :: _, [] => Except.ok false
    | '\\' :: pc :: prest, c :: nrest =>
      if pc = c then globMatch fuel' prest nrest else Except.ok false
    | _ :: _, [] => Except.ok false
    | pc :: prest, c :: nrest =>
      if pc = c then globMatch fuel' prest nrest else Except.ok false

/-- Model of `filepath.Match` on strings. -/
def goMatchStr (pattern name : String) : Except String Bool :=
  globMatch (pattern.data.length + name.data.length + 1) pattern.data name.data

/-! ### Path selectors (getPathSelectors) and the path filter matcher -/

/-- The `pathSelector` function type: a compiled predicate
`path -> (matches, error)`. -/
def PathSelector := String → Except String Bool

/-- The closure compiled for `regexp:`/`regex:` patterns: a total
regular-expression matcher `m` (obtained from the `regexp` collaborator)
applied to the path; it never errors. -/
def regexSelector (m : String → Bool) : PathSelector :=
  fun path => Except.ok (m path)

/-- The closure compiled for `glob:` patterns: `filepath.Match` of the
pattern against the path. -/
def globSelector (pattern : String) : PathSelector :=
  fun path => goMatchStr pattern path

/-- The closure compiled in the default case of `getPathSelectors`:
compute `filepath.Rel(basePath, path)`; an error is returned as a
non-match with that error, otherwise the path matches iff the relative
path does not contain the substring `".."`. -/
def basePathSelector (basePath : String) : PathSelector :=
  fun path =>
    match goRel basePath path with
    | Except.error e => Except.error e
    | Except.ok relPath => Except.ok (!(hasDotDot relPath))

/-- Model of the `strings.HasPrefix` test used for dialect dispatch. -/
def strStartsWith (s pre : String) : Bool :=
  pre.data.isPrefixOf s.data

/-- Model of `strings.TrimPrefix` given that the prefix has already
been checked (`n` is the prefix length in characters). -/
def strDropChars (s : String) (n : Nat) : String :=
  String.mk (s.data.drop n)

/-- Embedding of `getPathSelectors`: compile each pattern string to a
predicate by prefix dispatch (`regexp:`, `regex:`, `glob:`, default
base-path), preserving order; the first compilation failure aborts the
whole batch.  `rx` is the `regexp.Compile` collaborator: `none` models
a compilation error, `some m` a compiled total matcher. -/
def getPathSelectors (rx : String → Option (String → Bool)) :
    List String → Except String (List PathSelector)
  | [] => Except.ok []
  | selectorStr :: rest =>
    match
      (if strStartsWith selectorStr ("regexp:") then
        match rx (strDropChars selectorStr 7) with
        | none => Except.error ("error compiling regular expression")
        | some m => Except.ok (regexSelector m)
      else if strStartsWith selectorStr ("regex:") then
        match rx (strDropChars selectorStr 6) with
        | none => Except.error ("error compiling regular expression")
        | some m => Except.ok (regexSelector m)
      else if strStartsWith selectorStr ("glob:") then
        Except.ok (globSelector (strDropChars selectorStr 5))
      else Except.ok (basePathSelector selectorStr)) with
    | Except.error e => Except.error e
    | Except.ok sel =>
      match getPathSelectors rx rest with
      | Except.error e => Except.error e
      | Except.ok sels => Except.ok (sel :: sels)

/-- The selector loops inside `matchesPathsFilters`: evaluate the
selectors against `path` in order; the first error aborts, the first
`true` wins, otherwise the result is `false`.  (This is both the
include loop, whose `selected`/`break` structure computes exactly this,
and the exclude loop.) -/
def anySelector (path : String) : List PathSelector → Except String Bool
  | [] => Except.ok false
  | sel :: rest =>
    match sel path with
    | Except.error e => Except.error e
    | Except.ok true => Except.ok true
    | Except.ok false => anySelector path rest

/-- Embedding of `matchesPathsFilters`: walk the changed paths in list
order; a path qualifies if it matches at least one include selector
(every path is implicitly included when `includeSelectors` is empty)
and no exclude selector; the first qualifying path returns `true`
immediately; a selector error aborts the whole call; if no path
qualifies the result is `false`. -/
def matchesPathsFilters (includeSelectors excludeSelectors : List PathSelector) :
    List String → Except String Bool
  | [] => Except.ok false
  | path :: rest =>
    match
      (if includeSelectors.isEmpty then Except.ok true
       else anySelector path includeSelectors) with
    | Except.error e => Except.error e
    | Except.ok false => matchesPathsFilters includeSelectors excludeSelectors rest
    | Except.ok true =>
      match anySelector path excludeSelectors with
      | Except.error e => Except.error e
      | Except.ok true => matchesPathsFilters includeSelectors excludeSelectors rest
      | Except.ok false => Except.ok true

/-- An error-free selector built from a boolean predicate (used to
state the extensional behaviour of the matcher). -/
def liftSelector (f : String → Bool) : PathSelector :=
  fun path => Except.ok (f path)

/-! ### Commit history walker (reconciler.discoverBranchHistory)

The git repository handle is embedded as a pure finite commit history
(`listCommitsFn(repo, limit, skip)` returns `(history.drop skip).take
limit` — the honest paginated view of a finite branch history, which
is what `git.Repo.ListCommits` provides) plus a diff-path oracle
`getDiff` for `getDiffPathsForCommitIDFn`.  The subscription's
`IncludePaths`/`ExcludePaths` are nilable slices, hence
`Option (List String)`. -/

/-- The per-commit filtering loop over one page of commits (the inner
`for` of `discoverBranchHistory`): fetch each commit's changed paths,
evaluate the matcher, append qualifying commits in source order, and
return (`Sum.inl`) exactly the limit as soon as the accumulated set
reaches 20; `Sum.inr` hands the accumulator to the next page. -/
def processPage (getDiff : String → Except String (List String))
    (incSel excSel : List PathSelector) :
    List CommitMetadata → List CommitMetadata →
    Except String (List CommitMetadata ⊕ List CommitMetadata)
  | acc, [] => Except.ok (Sum.inr acc)
  | acc, meta :: rest =>
    match getDiff meta.id with
    | Except.error e =>
      Except.error ("error getting diff paths for commit " ++ meta.id ++ ": " ++ e)
    | Except.ok diffPaths =>
      match matchesPathsFilters incSel excSel diffPaths with
      | Except.error e =>
        Except.error ("error checking includePaths/excludePaths match for commit "
          ++ meta.id ++ ": " ++ e)
      | Except.ok m =>
        let acc' := if m then acc ++ [meta] else acc
        if 20 ≤ acc'.length then Except.ok (Sum.inl (trimSlice acc' 20))
        else processPage getDiff incSel excSel acc' rest

/-- The page loop of `discoverBranchHistory`: request pages of 20 via
the skip-offset cursor; with no path filters return the very first
page as-is; otherwise compile the selectors, filter each page, stop
with exactly 20 once 20 have accumulated, and stop with whatever has
accumulated when a page comes back empty. -/
def branchHistoryLoop (rx : String → Option (String → Bool))
    (getDiff : String → Except String (List String))
    (history : List CommitMetadata)
    (includePaths excludePaths : Option (List String))
    (skip : Nat) (acc : List CommitMetadata) :
    Except String (List CommitMetadata) :=
  if includePaths = none ∧ excludePaths = none then
    Except.ok ((history.drop skip).take 20)
  else
    match getPathSelectors rx (includePaths.getD []) with
    | Except.error e => Except.error ("error parsing include selector: " ++ e)
    | Except.ok incSel =>
      match getPathSelectors rx (excludePaths.getD []) with
      | Except.error e => Except.error ("error parsing exclude selector: " ++ e)
      | Except.ok excSel =>
        match processPage getDiff incSel excSel acc ((history.drop skip).take 20) with
        | Except.error e => Except.error e
        | Except.ok (Sum.inl res) => Except.ok res
        | Except.ok (Sum.inr acc') =>
          if h : (history.drop skip).take 20 = [] then Except.ok (trimSlice acc' 20)
          else branchHistoryLoop rx getDiff history includePaths excludePaths
            (skip + 20) acc'
termination_by history.length - skip
decreasing_by
  have hlt : skip < history.length := by
    by_contra hge
    push_neg at hge
    rw [List.drop_eq_nil_of_le hge] at h
    exact h rfl
  omega

/-- Embedding of `reconciler.discoverBranchHistory`, starting at skip
offset 0 with an empty accumulator. -/
def discoverBranchHistory (rx : String → Option (String → Bool))
    (getDiff : String → Except String (List String))
    (history : List CommitMetadata)
    (includePaths excludePaths : Option (List String)) :
    Except String (List CommitMetadata) :=
  branchHistoryLoop rx getDiff history includePaths excludePaths 0 []

/-! ### Model of the Masterminds semver library

`selectSemVerTags` delegates parsing, constraint checking, and
precedence comparison to `github.com/Masterminds/semver/v3`, an
external collaborator.  The model below implements the library's
documented behaviour: lenient `NewVersion` parsing (optional `v`
prefix, one to three dot-separated numeric parts, optional prerelease
after the first `-` of the core, optional build metadata after `+`),
and semver-2.0 precedence (major, minor, patch numerically, then
prerelease: absence outranks presence, identifiers compared
dot-by-dot, numeric identifiers numerically and below alphanumeric
ones, a shorter identifier list below an extension of it; metadata is
ignored).  Precedence is realised as a lexicographic sort key in
existing linear orders, so its order laws come for free.  Constraints
model `NewConstraint` for the comparator subset
`=`, `!=`, `>`, `<`, `>=`, `<=`, bare versions, `,` (and) and
`||` (or); an unparsable non-empty constraint is `none`, modelling
the library's parse error. -/

/-- Split a character list on `.`, keeping empty segments. -/
def splitOnDot : List Char → List (List Char)
  | [] => [[]]
  | c :: rest =>
    if c = '.' then [] :: splitOnDot rest
    else
      match splitOnDot rest with
      | [] => [[c]]
      | seg :: segs => (c :: seg) :: segs

/-- Split at the first occurrence of a separator character, if any. -/
def splitFirst (sep : Char) : List Char → (List Char × Option (List Char))
  | [] => ([], none)
  | c :: rest =>
    if c = sep then ([], some rest)
    else
      match splitFirst sep rest with
      | (pre, o) => (c :: pre, o)

/-- Numeric value of an all-digit character list (`[0-9]+`). -/
def digitsToNat (l : List Char) : Option Nat :=
  if l = [] then none
  else if l.all Char.isDigit then
    some (l.foldl (fun acc c => acc * 10 + (c.toNat - 48)) 0)
  else none

/-- A parsed semantic version.  The original string is not stored: the
caller (`selectSemVerTags`) passes `meta.Tag` to `NewVersion`, so
`Original()` is always the tag string. -/
structure SemVer where
  major : Nat
  minor : Nat
  patch : Nat
  prerelease : List String
  buildMeta : List String
deriving DecidableEq

/-- A prerelease/metadata identifier: `[0-9A-Za-z-]+`. -/
def validIdent (l : List Char) : Bool :=
  !l.isEmpty && l.all (fun c => c.isAlphanum || c = '-')

/-- Model of Masterminds `semver.NewVersion` (lenient parsing). -/
def semverNewVersion (s : String) : Option SemVer :=
  let l := if s.data.head? = some 'v' then s.data.tail else s.data
  match splitFirst '+' l with
  | (beforePlus, metaPart) =>
    let metaOk : Option (List String) :=
      match metaPart with
      | none => some []
      | some m =>
        let segs := splitOnDot m
        if segs.all validIdent then some (segs.map String.mk) else none
    match metaOk with
    | none => none
    | some bm =>
      match splitFirst '-' beforePlus with
      | (core, prePart) =>
        let preOk : Option (List String) :=
          match prePart with
          | none => some []
          | some p =>
            let segs := splitOnDot p
            if segs.all validIdent then some (segs.map String.mk) else none
        match preOk with
        | none => none
        | some pre =>
          match (splitOnDot core).map digitsToNat with
          | [some maj] => some ⟨maj, 0, 0, pre, bm⟩
          | [some maj, some mnr] => some ⟨maj, mnr, 0, pre, bm⟩
          | [some maj, some mnr, some pat] => some ⟨maj, mnr, pat, pre, bm⟩
          | _ => none

/-- Sort key of one prerelease identifier: numeric identifiers rank
below alphanumeric ones, numerically among themselves; alphanumeric
identifiers compare by byte order. -/
def prIdKey (s : String) : Bool ×ₗ Nat ×ₗ (List Char) :=
  if !s.data.isEmpty && s.data.all Char.isDigit then
    toLex (false, toLex ((digitsToNat s.data).getD 0, []))
  else
    toLex (true, toLex (0, s.data))

/-- The full semver-2.0 precedence key: (major, minor, patch,
prerelease), lexicographically; `⊤` encodes "no prerelease", which
outranks every prerelease list; build metadata is ignored. -/
def semverKey (v : SemVer) :
    Nat ×ₗ Nat ×ₗ Nat ×ₗ WithTop (List (Bool ×ₗ Nat ×ₗ (List Char))) :=
  toLex (v.major, toLex (v.minor, toLex (v.patch,
    match v.prerelease with
    | [] => (⊤ : WithTop (List (Bool ×ₗ Nat ×ₗ (List Char))))
    | pre => ((pre.map prIdKey : List (Bool ×ₗ Nat ×ₗ (List Char))) :
        WithTop (List (Bool ×ₗ Nat ×ₗ (List Char)))))))

/-- Model of a compiled Masterminds constraint: `||`-separated groups
of `,`-separated comparators; a version satisfies the constraint iff
it satisfies every comparator of some group. -/
structure SvConstraints where
  groups : List (List (String × SemVer))
deriving DecidableEq

/-- One comparator check against the constraint version `cv`. -/
def comparatorCheck (op : String) (cv v : SemVer) : Bool :=
  if op = "" ∨ op = "=" then decide (semverKey v = semverKey cv)
  else if op = "!=" then !(decide (semverKey v = semverKey cv))
  else if op = ">" then decide (semverKey cv < semverKey v)
  else if op = "<" then decide (semverKey v < semverKey cv)
  else if op = ">=" then !(decide (semverKey v < semverKey cv))
  else if op = "<=" then !(decide (semverKey cv < semverKey v))
  else false

def constraintCheck (c : SvConstraints) (v : SemVer) : Bool :=
  c.groups.any (fun g => g.all (fun cmp => comparatorCheck cmp.1 cmp.2 v))

/-- Strip leading and trailing spaces. -/
def trimSpaces (l : List Char) : List Char :=
  ((l.dropWhile (fun c => c = ' ')).reverse.dropWhile (fun c => c = ' ')).reverse

/-- Split a constraint string on `||`. -/
def splitOrs : List Char → List (List Char)
  | [] => [[]]
  | '|' :: '|' :: rest => [] :: splitOrs rest
  | c :: rest =>
    match splitOrs rest with
    | [] => [[c]]
    | g :: gs => (c :: g) :: gs

/-- Split a constraint group on `,`. -/
def splitCommas : List Char → List (List Char)
  | [] => [[]]
  | c :: rest =>
    if c = ',' then [] :: splitCommas rest
    else
      match splitCommas rest with
      | [] => [[c]]
      | seg :: segs => (c :: seg) :: segs

/-- Parse one comparator: an optional operator followed by a version. -/
def parseComparator (l : List Char) : Option (String × SemVer) :=
  let t := trimSpaces l
  let opRest : String × List Char :=
    if t.take 2 = ['>', '='] then (">=", t.drop 2)
    else if t.take 2 = ['=', '>'] then (">=", t.drop 2)
    else if t.take 2 = ['<', '='] then ("<=", t.drop 2)
    else if t.take 2 = ['=', '<'] then ("<=", t.drop 2)
    else if t.take 2 = ['!', '='] then ("!=", t.drop 2)
    else if t.take 1 = ['>'] then (">", t.drop 1)
    else if t.take 1 = ['<'] then ("<", t.drop 1)
    else if t.take 1 = ['='] then ("=", t.drop 1)
    else ("", t)
  match semverNewVersion (String.mk (trimSpaces opRest.2)) with
  | none => none
  | some v => some (opRest.1, v)

/-- Model of Masterminds `semver.NewConstraint` on the comparator
subset above; `none` models the library's parse error. -/
def semverNewConstraint (s : String) : Option SvConstraints :=
  if s.data = [] then none
  else
    let parsed := (splitOrs s.data).map (fun g =>
      (splitCommas g).map parseComparator)
    if parsed.all (fun g => g.all Option.isSome) then
      some ⟨parsed.map (fun g => g.filterMap id)⟩
    else none

/-! ### selectSemVerTags -/

/-- The constraint test of the collection loop:
`svConstraint == nil || svConstraint.Check(sv)`. -/
def svKeep (oc : Option SvConstraints) (sv : SemVer) : Bool :=
  match oc with
  | none => true
  | some c => constraintCheck c sv

/-- The per-tag body of the collection loop in `selectSemVerTags`:
parse the tag as a semver (discarding it silently on failure) and keep
it if it satisfies the constraint (or unconditionally when no
constraint is configured), pairing the tag metadata with the parsed
version. -/
def svFilter (oc : Option SvConstraints) (meta : TagMetadata) :
    Option (TagMetadata × SemVer) :=
  match semverNewVersion meta.tag with
  | none => none
  | some sv =>
    if svKeep oc sv then some (meta, sv) else none

/-- Sort key used by the `slices.SortFunc` comparator of
`selectSemVerTags`: version precedence first, then the original string
(`Original()` = the tag) — both descending in the final order. -/
def svTagKey (p : TagMetadata × SemVer) :
    (Nat ×ₗ Nat ×ₗ Nat ×ₗ WithTop (List (Bool ×ₗ Nat ×ₗ (List Char)))) ×ₗ
      (List Char) :=
  toLex (semverKey p.2, p.1.tag.data)

/-- Candidate `a` may precede `b` in the sorted output (the comparator returns
non-positive): descending by `svTagKey`. -/
def svBefore (a b : TagMetadata × SemVer) : Prop :=
  svTagKey b ≤ svTagKey a

instance : DecidableRel svBefore := fun a b => by
  unfold svBefore; infer_instance

/-- Embedding of `selectSemVerTags`: parse the optional constraint
(a non-empty unparsable constraint is a fatal error), keep the tags
that parse as semver and satisfy the constraint, sort descending by
precedence with the original-string tie-break, and strip the parsed
versions. -/
def selectSemVerTags (tags : List TagMetadata) (constraint : String) :
    Except String (List TagMetadata) :=
  match
    (if constraint.data = [] then Except.ok none
     else
       match semverNewConstraint constraint with
       | none => Except.error ("error parsing semver constraint " ++ constraint)
       | some c => Except.ok (some c)) with
  | Except.error e => Except.error e
  | Except.ok svConstraint =>
    let svs := tags.filterMap (svFilter svConstraint)
    Except.ok ((svs.insertionSort svBefore).map Prod.fst)

/-- The survivor set of `selectSemVerTags` as stated by the spec: tags
that parse as semver and satisfy the constraint (all parsed tags, when
no constraint is configured). -/
def semverSurvivors (tags : List TagMetadata) (oc : Option SvConstraints) :
    List TagMetadata :=
  tags.filter (fun meta => (svFilter oc meta).isSome)

/-- The descending order the output of `selectSemVerTags` satisfies:
whenever `a` appears before `b`, both parse as semver and either `a`'s
version has strictly higher precedence, or the precedences are equal
and `a`'s original tag string is lexically at least `b`'s. -/
def semverTagOrder (a b : TagMetadata) : Prop :=
  ∃ va vb, semverNewVersion a.tag = some va ∧ semverNewVersion b.tag = some vb ∧
    (semverKey vb < semverKey va ∨
      (semverKey vb = semverKey va ∧ b.tag.data ≤ a.tag.data))

/-- Concrete fetch oracle for the C4 witness: key "B" fails, the other
keys succeed. -/
def witnessFetch : String → Except String (Option Image) :=
  fun t =>
    if t = "B" then Except.error ("boom")
    else Except.ok (some ⟨t, "digest", some 1, none⟩)

/-! ### Theorems

The remainder of the file proves the claims about the definitions
above. -/

theorem imageLess_iff_lt (a b : Image) :
    imageLess a b = true ↔ imageKey b < imageKey a := by
  unfold imageLess imageKey strLt
  by_cases hts : imageTime a = imageTime b
  · rw [if_pos hts, decide_eq_true_eq, Prod.Lex.lt_iff]
    constructor
    · intro h
      exact Or.inr ⟨hts.symm, h⟩
    · rintro (h | ⟨_, h⟩)
      · rw [hts] at h
        exact absurd h (lt_irrefl _)
      · exact h
  · rw [if_neg hts, decide_eq_true_eq, Prod.Lex.lt_iff]
    constructor
    · intro h
      exact Or.inl h
    · rintro (h | ⟨heq, _⟩)
      · exact h
      · exact absurd heq.symm hts

theorem imagePrecedes_iff_le (a b : Image) :
    imagePrecedes a b ↔ imageKey b ≤ imageKey a := by
  unfold imagePrecedes
  rw [← not_lt]
  constructor
  · intro h hk
    rw [← imageLess_iff_lt b a] at hk
    rw [h] at hk
    exact Bool.false_ne_true hk
  · intro h
    by_contra hne
    have hT : imageLess b a = true := by
      cases hb : imageLess b a
      · exact absurd hb hne
      · rfl
    exact h ((imageLess_iff_lt b a).mp hT)

instance : IsTotal Image imagePrecedes :=
  ⟨fun a b => by
    rw [imagePrecedes_iff_le, imagePrecedes_iff_le]
    exact le_total (imageKey b) (imageKey a)⟩

instance : IsTrans Image imagePrecedes :=
  ⟨fun a b c hab hbc => by
    rw [imagePrecedes_iff_le] at *
    exact le_trans hbc hab⟩

theorem selectPlatformLoop_pure (f : String → Option Image) (limit : Nat) :
    ∀ (l acc : List Image), acc.length ≤ limit →
      selectPlatformLoop (fun d => Except.ok (f d)) limit acc l
        = Except.ok (acc ++ (l.filterMap (fun img =>
            (f img.digest).map (fun di => { di with tag := img.tag }))).take
              (limit - acc.length)) := by
  intro l
  induction l with
  | nil => intro acc _; simp [selectPlatformLoop]
  | cons img rest ih =>
    intro acc hacc
    by_cases hfull : limit ≤ acc.length
    · have h0 : limit - acc.length = 0 := by omega
      rw [selectPlatformLoop, if_pos hfull, h0, List.take_zero, List.append_nil]
    · cases hf : f img.digest with
      | none =>
        rw [selectPlatformLoop, if_neg hfull]
        simp only [hf]
        rw [ih acc hacc]
        simp [List.filterMap_cons, hf]
      | some di =>
        have hlen : (acc ++ [{ di with tag := img.tag }]).length ≤ limit := by
          simp only [List.length_append, List.length_singleton]
          omega
        rw [selectPlatformLoop, if_neg hfull]
        simp only [hf]
        rw [ih _ hlen]
        simp only [List.filterMap_cons, hf, Option.map_some']
        have hpos : limit - acc.length = (limit - (acc.length + 1)) + 1 := by omega
        rw [hpos, List.take_succ_cons]
        simp

theorem selectFromImages_eq_none
    (g : String → Option PlatformConstraint → Except String (Option Image))
    (dlim : Nat) (images : List Image) :
    selectFromImages g none dlim images
      = if images.isEmpty then Except.ok []
        else Except.ok (images.take (effectiveLimit dlim images.length)) := by
  by_cases himg : images.isEmpty <;> simp [selectFromImages, himg]

theorem selectFromImages_eq_some
    (g : String → Option PlatformConstraint → Except String (Option Image))
    (p : PlatformConstraint) (dlim : Nat) (images : List Image) :
    selectFromImages g (some p) dlim images
      = if images.isEmpty then Except.ok []
        else selectPlatformLoop (fun d => g d (some p))
          (effectiveLimit dlim images.length) [] images := by
  by_cases himg : images.isEmpty <;> simp [selectFromImages, himg]

theorem selectPlatformLoop_length
    (g : String → Except String (Option Image)) (limit : Nat) :
    ∀ (l acc res : List Image), acc.length ≤ limit →
      selectPlatformLoop g limit acc l = Except.ok res →
      res.length ≤ limit := by
  intro l
  induction l with
  | nil =>
    intro acc res hacc heq
    rw [selectPlatformLoop] at heq
    cases heq
    exact hacc
  | cons img rest ih =>
    intro acc res hacc heq
    rw [selectPlatformLoop] at heq
    by_cases hfull : limit ≤ acc.length
    · rw [if_pos hfull] at heq
      cases heq
      exact hacc
    · rw [if_neg hfull] at heq
      cases hg : g img.digest with
      | error e =>
        rw [hg] at heq
        cases heq
      | ok oi =>
        rw [hg] at heq
        cases oi with
        | none => exact ih acc res hacc heq
        | some di =>
          refine ih _ res ?_ heq
          simp only [List.length_append, List.length_singleton]
          omega

/-- C1: For the image selector with a platform constraint configured
and an error-free digest-resolution oracle `f`, `Select` walks the
entire date-sorted candidate list in order, re-resolves each candidate
by digest with the platform filter, skips candidates whose filtered
resolution yields no match, assigns each accumulated result the tag
from the original unfiltered listing, and stops at the configured
limit: the result is exactly the first `effectiveLimit` entries of the
in-order platform matches (conjunct 1).  If zero candidates match the
platform it returns an empty result with no error (conjunct 2).  Over
the concrete 5 sorted candidates `c1Images` where only the 3rd and 5th
match the platform and the discovery limit is 2, it returns exactly
those two, with their original tags, in sorted-candidate order
(conjunct 3). -/
theorem selectFromImages_platform_walk :
    (∀ (f : String → Option Image) (p : PlatformConstraint)
        (images : List Image) (dlim : Nat),
      selectFromImages (fun d _ => Except.ok (f d)) (some p) dlim images
        = Except.ok ((images.filterMap (fun img =>
            (f img.digest).map (fun di => { di with tag := img.tag }))).take
              (effectiveLimit dlim images.length)))
    ∧ (∀ (p : PlatformConstraint) (images : List Image) (dlim : Nat),
        selectFromImages (fun _ _ => Except.ok none) (some p) dlim images
          = Except.ok [])
    ∧ selectFromImages (fun d _ => Except.ok (c1Fetch d))
        (some ⟨"linux", "amd64"⟩) 2 c1Images
        = Except.ok [⟨"t3", "d3", some 30, some ("linux/amd64")⟩,
                     ⟨"t5", "d5", some 10, some ("linux/amd64")⟩] := by
  have hgen : ∀ (f : String → Option Image) (p : PlatformConstraint)
      (images : List Image) (dlim : Nat),
      selectFromImages (fun d _ => Except.ok (f d)) (some p) dlim images
        = Except.ok ((images.filterMap (fun img =>
            (f img.digest).map (fun di => { di with tag := img.tag }))).take
              (effectiveLimit dlim images.length)) := by
    intro f p images dlim
    rw [selectFromImages]
    cases himg : images.isEmpty with
    | true =>
      rw [if_pos rfl]
      rw [List.isEmpty_iff] at himg
      subst himg
      simp
    | false =>
      rw [if_neg (by simp)]
      change selectPlatformLoop (fun d => Except.ok (f d))
        (effectiveLimit dlim images.length) [] images = _
      rw [selectPlatformLoop_pure f _ images [] (Nat.zero_le _)]
      simp
  refine ⟨hgen, ?_, ?_⟩
  · intro p images dlim
    rw [hgen (fun _ => none) p images dlim]
    simp
  · rw [hgen]
    rfl

/-- C5: For every candidate list and non-negative discovery limit, the
selector's returned candidate set never exceeds a positive configured
limit (conjunct 1, on both the platform-free and platform-constrained
paths, for an arbitrary digest oracle `g`); a limit of 0 behaves
identically to a limit equal to the full candidate count (conjunct 2);
and a limit at least the candidate count truncates nothing: on either
path it behaves like the unlimited limit 0, and on the platform-free
path it returns the whole candidate list (conjunct 3). -/
theorem selectFromImages_limit_spec
    (g : String → Option PlatformConstraint → Except String (Option Image))
    (platform : Option PlatformConstraint) (images : List Image) (dlim : Nat) :
    (0 < dlim → ∀ res, selectFromImages g platform dlim images = Except.ok res →
      res.length ≤ dlim)
    ∧ selectFromImages g platform 0 images
        = selectFromImages g platform images.length images
    ∧ (images.length ≤ dlim →
        selectFromImages g platform dlim images
          = selectFromImages g platform 0 images
        ∧ selectFromImages g none dlim images = Except.ok images) := by
  refine ⟨?_, ?_, ?_⟩
  · intro hpos res heq
    have heff : effectiveLimit dlim images.length ≤ dlim := by
      unfold effectiveLimit
      split_ifs <;> omega
    cases platform with
    | none =>
      rw [selectFromImages_eq_none] at heq
      by_cases himg : images.isEmpty
      · rw [if_pos himg] at heq
        cases heq
        exact Nat.zero_le _
      · rw [if_neg himg] at heq
        cases heq
        rw [List.length_take]
        exact le_trans (min_le_left _ _) heff
    | some p =>
      rw [selectFromImages_eq_some] at heq
      by_cases himg : images.isEmpty
      · rw [if_pos himg] at heq
        cases heq
        exact Nat.zero_le _
      · rw [if_neg himg] at heq
        exact le_trans
          (selectPlatformLoop_length _ _ images [] res (Nat.zero_le _) heq) heff
  · have h0 : effectiveLimit 0 images.length
        = effectiveLimit images.length images.length := by
      unfold effectiveLimit
      split_ifs <;> omega
    cases platform with
    | none => rw [selectFromImages_eq_none, selectFromImages_eq_none, h0]
    | some p => rw [selectFromImages_eq_some, selectFromImages_eq_some, h0]
  · intro hlen
    have heq0 : effectiveLimit dlim images.length
        = effectiveLimit 0 images.length := by
      unfold effectiveLimit
      split_ifs <;> omega
    constructor
    · cases platform with
      | none => rw [selectFromImages_eq_none, selectFromImages_eq_none, heq0]
      | some p => rw [selectFromImages_eq_some, selectFromImages_eq_some, heq0]
    · rw [selectFromImages_eq_none]
      by_cases himg : images.isEmpty
      · rw [if_pos himg]
        rw [List.isEmpty_iff] at himg
        rw [himg]
      · rw [if_neg himg]
        have heff : effectiveLimit dlim images.length = images.length := by
          unfold effectiveLimit
          split_ifs <;> omega
        rw [heff, List.take_length]

theorem selectFromImages_limit_spec_witness :
    selectFromImages (fun _ _ => Except.ok none) none 1
        [(⟨"a", "d", some 1, none⟩ : Image)]
      = Except.ok [(⟨"a", "d", some 1, none⟩ : Image)]
    ∧ List.length [(⟨"a", "d", some 1, none⟩ : Image)] ≤ 1 := by
  have h := selectFromImages_limit_spec (fun _ _ => Except.ok none) none
    [(⟨"a", "d", some 1, none⟩ : Image)] 1
  exact ⟨(h.2.2 (by decide)).2, h.1 (by decide) _ ((h.2.2 (by decide)).2)⟩

/-! ### Theorems for claims C3 and C10 -/

theorem anySelector_lift (fs : List (String → Bool)) (p : String) :
    anySelector p (fs.map liftSelector) = Except.ok (fs.any (fun f => f p)) := by
  induction fs with
  | nil => rfl
  | cons f rest ih =>
    rw [List.map_cons, anySelector, List.any_cons]
    cases hf : f p
    · simpa [liftSelector, hf] using ih
    · simp [liftSelector, hf]

theorem matchesPathsFilters_lift (incB excB : List (String → Bool)) :
    ∀ paths, matchesPathsFilters (incB.map liftSelector) (excB.map liftSelector) paths
      = Except.ok (paths.any (fun p =>
          (incB.isEmpty || incB.any (fun f => f p))
          && !(excB.any (fun f => f p)))) := by
  intro paths
  induction paths with
  | nil => rfl
  | cons p rest ih =>
    rw [matchesPathsFilters, List.any_cons]
    cases incB with
    | nil =>
      rw [if_pos (by simp)]
      rw [anySelector_lift excB p]
      cases hex : excB.any (fun f => f p)
      · simp [hex]
      · simpa [hex] using ih
    | cons f fs =>
      rw [if_neg (by simp)]
      rw [anySelector_lift (f :: fs) p]
      cases hany : (f :: fs).any (fun f => f p)
      · simpa [hany] using ih
      · rw [anySelector_lift excB p]
        cases hex : excB.any (fun g => g p)
        · simp [hany, hex]
        · simpa [hany, hex] using ih

/-- C3: For every pair of compiled include/exclude predicate lists and
every list of changed paths, the path filter matcher evaluates paths
in list order and returns `true` at the first path that matches at
least one include predicate (every path counts as included when no
include predicates are configured) and matches no exclude predicate,
and returns `false` if no path passes (conjunct 1, the extensional
characterisation over error-free predicates); the first qualifying
path returns `true` without examining the remaining paths, which are
arbitrary (conjunct 2); any predicate evaluation error aborts the
whole call with that error, from the include stage (conjunct 3) or the
exclude stage (conjunct 4).  Conjuncts 5 and 6 are the two concrete
scenarios of the claim, with the `glob:` predicates compiled by
`getPathSelectors`. -/
theorem matchesPathsFilters_spec :
    (∀ (incB excB : List (String → Bool)) (paths : List String),
      matchesPathsFilters (incB.map liftSelector) (excB.map liftSelector) paths
        = Except.ok (paths.any (fun p =>
            (incB.isEmpty || incB.any (fun f => f p))
            && !(excB.any (fun f => f p)))))
    ∧ (∀ (inc exc : List PathSelector) (p : String) (rest : List String),
        (inc.isEmpty = true ∨ anySelector p inc = Except.ok true) →
        anySelector p exc = Except.ok false →
        matchesPathsFilters inc exc (p :: rest) = Except.ok true)
    ∧ (∀ (inc exc : List PathSelector) (p : String) (rest : List String)
        (e : String),
        inc.isEmpty = false → anySelector p inc = Except.error e →
        matchesPathsFilters inc exc (p :: rest) = Except.error e)
    ∧ (∀ (inc exc : List PathSelector) (p : String) (rest : List String)
        (e : String),
        (inc.isEmpty = true ∨ anySelector p inc = Except.ok true) →
        anySelector p exc = Except.error e →
        matchesPathsFilters inc exc (p :: rest) = Except.error e)
    ∧ matchesPathsFilters [globSelector ("src/*.go")] []
        ["src/main.go", "docs/readme.md"] = Except.ok true
    ∧ matchesPathsFilters [] [globSelector ("*.md")] ["readme.md"]
        = Except.ok false := by
  refine ⟨matchesPathsFilters_lift, ?_, ?_, ?_, rfl, rfl⟩
  · intro inc exc p rest hin hex
    cases hempty : inc.isEmpty
    · rcases hin with h | h
      · rw [hempty] at h
        exact absurd h (by simp)
      · rw [matchesPathsFilters, if_neg (by simp [hempty]), h, hex]
    · rw [matchesPathsFilters, if_pos hempty, hex]
  · intro inc exc p rest e hne hin
    rw [matchesPathsFilters, if_neg (by simp [hne]), hin]
  · intro inc exc p rest e hin hex
    cases hempty : inc.isEmpty
    · rcases hin with h | h
      · rw [hempty] at h
        exact absurd h (by simp)
      · rw [matchesPathsFilters, if_neg (by simp [hempty]), h, hex]
    · rw [matchesPathsFilters, if_pos hempty, hex]

theorem matchesPathsFilters_spec_witness :
    matchesPathsFilters [] [] ["x"] = Except.ok true :=
  matchesPathsFilters_spec.2.1 [] [] "x" [] (Or.inl rfl) rfl

/-- C10: For every include/exclude selector configuration—including no
selectors at all—`matchesPathsFilters` returns `false` (revision not
relevant) whenever the changed-path list is empty, so a revision with
no diff paths can never qualify through the matcher. -/
theorem matchesPathsFilters_empty_diff
    (includeSelectors excludeSelectors : List PathSelector) :
    matchesPathsFilters includeSelectors excludeSelectors [] = Except.ok false :=
  rfl

/-! ### Theorems for claim C7 -/

theorem splitOnSlash_head_prefix : ∀ l : List Char,
    ∃ s0 rest, splitOnSlash l = s0 :: rest ∧ s0 <+: l ∧
      ∀ seg ∈ rest, seg <:+: l := by
  intro l
  induction l with
  | nil => exact ⟨[], [], rfl, List.nil_prefix, by simp⟩
  | cons c tl ih =>
    obtain ⟨s0, rest, heq, hpre, hrest⟩ := ih
    by_cases hc : c = '/'
    · subst hc
      refine ⟨[], splitOnSlash tl, by rw [splitOnSlash, if_pos rfl], List.nil_prefix, ?_⟩
      intro seg hseg
      rw [heq] at hseg
      rcases List.mem_cons.mp hseg with rfl | hm
      · exact List.infix_cons hpre.isInfix
      · exact List.infix_cons (hrest seg hm)
    · refine ⟨c :: s0, rest, ?_, ?_, ?_⟩
      · rw [splitOnSlash, if_neg hc, heq]
      · obtain ⟨t, ht⟩ := hpre
        exact ⟨t, by rw [List.cons_append, ht]⟩
      · intro seg hm
        exact List.infix_cons (hrest seg hm)

theorem mem_splitOnSlash_infix (l seg : List Char)
    (h : seg ∈ splitOnSlash l) : seg <:+: l := by
  obtain ⟨s0, rest, heq, hpre, hrest⟩ := splitOnSlash_head_prefix l
  rw [heq] at h
  rcases List.mem_cons.mp h with rfl | hm
  · exact hpre.isInfix
  · exact hrest seg hm

/-- C7 counterexample: for the prefix-free pattern `"a"` and candidate
path `"a/b..c"`, the relative path from the base is `"b..c"`, which
has no parent-directory escape component (no `..` segment), so the
claimed predicate ("matches iff p lies within or equals the base
directory, i.e. the relative path contains no parent-directory escape
component") requires a match; but the compiled predicate returns
`false`, because the code tests for `".."` as a *substring* of the
relative path, not as a path component. -/
theorem basePathSelector_counterexample :
    basePathSelector ("a") ("a/b..c") = Except.ok false
    ∧ goRel ("a") ("a/b..c") = Except.ok ("b..c")
    ∧ (splitOnSlash ("b..c").data).all (fun seg => seg != ['.', '.']) = true :=
  ⟨rfl, rfl, rfl⟩

/-- C7 (amended): for every pattern string without a recognized prefix,
the compiled default path predicate matches a candidate path `p` iff
the relative path from the base to `p` does not contain `".."` as a
*substring* — a strictly stronger requirement than containing no
parent-directory escape component (a match still guarantees that no
`..` component is present, conjunct 1b, but a path inside the base
whose segment names merely contain `".."` is also rejected); and the
predicate returns a non-match with an error exactly when the
relative-path computation itself errors (conjunct 2). -/
theorem basePathSelector_spec (basePath path : String) :
    (∀ relPath, goRel basePath path = Except.ok relPath →
      basePathSelector basePath path = Except.ok (!(hasDotDot relPath))
      ∧ (hasDotDot relPath = false →
          ∀ seg ∈ splitOnSlash relPath.data, seg ≠ ['.', '.']))
    ∧ (∀ e, goRel basePath path = Except.error e →
        basePathSelector basePath path = Except.error e) := by
  constructor
  · intro relPath hok
    constructor
    · simp only [basePathSelector, hok]
    · intro hnodd seg hseg heq
      subst heq
      have hinf : ['.', '.'] <:+: relPath.data :=
        mem_splitOnSlash_infix relPath.data _ hseg
      rw [hasDotDot, decide_eq_false_iff_not] at hnodd
      exact hnodd hinf
  · intro e herr
    simp only [basePathSelector, herr]

theorem basePathSelector_spec_witness :
    basePathSelector ("a") ("a/b") = Except.ok true := by
  have h := (basePathSelector_spec ("a") ("a/b")).1 ("b") rfl
  rw [h.1]
  rfl

/-! ### Unfolding lemmas and theorems for claim C8 -/

theorem branchHistoryLoop_nofilter (rx : String → Option (String → Bool))
    (getDiff : String → Except String (List String))
    (history : List CommitMetadata) (skip : Nat) (acc : List CommitMetadata) :
    branchHistoryLoop rx getDiff history none none skip acc
      = Except.ok ((history.drop skip).take 20) := by
  rw [branchHistoryLoop, if_pos ⟨rfl, rfl⟩]

theorem branchHistoryLoop_inl (rx : String → Option (String → Bool))
    (getDiff : String → Except String (List String))
    (history : List CommitMetadata) (inc exc : Option (List String))
    (skip : Nat) (acc res : List CommitMetadata)
    (incSel excSel : List PathSelector)
    (hne : ¬(inc = none ∧ exc = none))
    (hgi : getPathSelectors rx (inc.getD []) = Except.ok incSel)
    (hge : getPathSelectors rx (exc.getD []) = Except.ok excSel)
    (hpp : processPage getDiff incSel excSel acc ((history.drop skip).take 20)
      = Except.ok (Sum.inl res)) :
    branchHistoryLoop rx getDiff history inc exc skip acc = Except.ok res := by
  rw [branchHistoryLoop, if_neg hne, hgi, hge]
  simp only [hpp]

theorem branchHistoryLoop_error (rx : String → Option (String → Bool))
    (getDiff : String → Except String (List String))
    (history : List CommitMetadata) (inc exc : Option (List String))
    (skip : Nat) (acc : List CommitMetadata) (e : String)
    (incSel excSel : List PathSelector)
    (hne : ¬(inc = none ∧ exc = none))
    (hgi : getPathSelectors rx (inc.getD []) = Except.ok incSel)
    (hge : getPathSelectors rx (exc.getD []) = Except.ok excSel)
    (hpp : processPage getDiff incSel excSel acc ((history.drop skip).take 20)
      = Except.error e) :
    branchHistoryLoop rx getDiff history inc exc skip acc = Except.error e := by
  rw [branchHistoryLoop, if_neg hne, hgi, hge]
  simp only [hpp]

theorem branchHistoryLoop_inr_empty (rx : String → Option (String → Bool))
    (getDiff : String → Except String (List String))
    (history : List CommitMetadata) (inc exc : Option (List String))
    (skip : Nat) (acc acc' : List CommitMetadata)
    (incSel excSel : List PathSelector)
    (hne : ¬(inc = none ∧ exc = none))
    (hgi : getPathSelectors rx (inc.getD []) = Except.ok incSel)
    (hge : getPathSelectors rx (exc.getD []) = Except.ok excSel)
    (hpp : processPage getDiff incSel excSel acc ((history.drop skip).take 20)
      = Except.ok (Sum.inr acc'))
    (hemp : (history.drop skip).take 20 = []) :
    branchHistoryLoop rx getDiff history inc exc skip acc
      = Except.ok (trimSlice acc' 20) := by
  rw [branchHistoryLoop, if_neg hne, hgi, hge]
  simp only [hpp]
  rw [dif_pos hemp]

theorem branchHistoryLoop_inr_step (rx : String → Option (String → Bool))
    (getDiff : String → Except String (List String))
    (history : List CommitMetadata) (inc exc : Option (List String))
    (skip : Nat) (acc acc' : List CommitMetadata)
    (incSel excSel : List PathSelector)
    (hne : ¬(inc = none ∧ exc = none))
    (hgi : getPathSelectors rx (inc.getD []) = Except.ok incSel)
    (hge : getPathSelectors rx (exc.getD []) = Except.ok excSel)
    (hpp : processPage getDiff incSel excSel acc ((history.drop skip).take 20)
      = Except.ok (Sum.inr acc'))
    (hemp : ¬(history.drop skip).take 20 = []) :
    branchHistoryLoop rx getDiff history inc exc skip acc
      = branchHistoryLoop rx getDiff history inc exc (skip + 20) acc' := by
  rw [branchHistoryLoop, if_neg hne, hgi, hge]
  simp only [hpp]
  rw [dif_neg hemp]

theorem processPage_inl_length
    (getDiff : String → Except String (List String))
    (incSel excSel : List PathSelector) :
    ∀ (page acc r : List CommitMetadata),
      processPage getDiff incSel excSel acc page = Except.ok (Sum.inl r) →
      r.length ≤ 20 := by
  intro page
  induction page with
  | nil =>
    intro acc r h
    rw [processPage] at h
    simp at h
  | cons meta rest ih =>
    intro acc r h
    rw [processPage] at h
    cases hd : getDiff meta.id with
    | error e =>
      simp only [hd] at h
      cases h
    | ok diffs =>
      cases hm : matchesPathsFilters incSel excSel diffs with
      | error e =>
        simp only [hd, hm] at h
        cases h
      | ok m =>
        simp only [hd, hm] at h
        by_cases hfull : 20 ≤ (if m = true then acc ++ [meta] else acc).length
        · rw [if_pos hfull] at h
          cases h
          rw [trimSlice, List.length_take]
          exact min_le_left _ _
        · rw [if_neg hfull] at h
          exact ih _ _ h

theorem branchHistoryLoop_ok_length
    (rx : String → Option (String → Bool))
    (getDiff : String → Except String (List String))
    (history : List CommitMetadata) (inc exc : Option (List String)) :
    ∀ (fuel skip : Nat) (acc res : List CommitMetadata),
      history.length - skip ≤ fuel →
      branchHistoryLoop rx getDiff history inc exc skip acc = Except.ok res →
      res.length ≤ 20 := by
  intro fuel
  induction fuel with
  | zero =>
    intro skip acc res hf h
    have hemp : (history.drop skip).take 20 = [] := by
      rw [List.drop_eq_nil_of_le (by omega)]
      rfl
    by_cases hnf : inc = none ∧ exc = none
    · obtain ⟨h1, h2⟩ := hnf
      subst h1
      subst h2
      rw [branchHistoryLoop_nofilter, hemp] at h
      cases h
      exact Nat.zero_le _
    · cases hgi : getPathSelectors rx (inc.getD []) with
      | error e =>
        rw [branchHistoryLoop, if_neg hnf, hgi] at h
        simp at h
      | ok incSel =>
        cases hge : getPathSelectors rx (exc.getD []) with
        | error e =>
          rw [branchHistoryLoop, if_neg hnf, hgi, hge] at h
          simp at h
        | ok excSel =>
          have hpp : processPage getDiff incSel excSel acc
              ((history.drop skip).take 20) = Except.ok (Sum.inr acc) := by
            rw [hemp]
            rfl
          rw [branchHistoryLoop_inr_empty rx getDiff history inc exc skip acc acc
            incSel excSel hnf hgi hge hpp hemp] at h
          cases h
          rw [trimSlice, List.length_take]
          exact min_le_left _ _
  | succ n ihf =>
    intro skip acc res hf h
    by_cases hnf : inc = none ∧ exc = none
    · obtain ⟨h1, h2⟩ := hnf
      subst h1
      subst h2
      rw [branchHistoryLoop_nofilter] at h
      cases h
      rw [List.length_take]
      exact min_le_left _ _
    · cases hgi : getPathSelectors rx (inc.getD []) with
      | error e =>
        rw [branchHistoryLoop, if_neg hnf, hgi] at h
        simp at h
      | ok incSel =>
        cases hge : getPathSelectors rx (exc.getD []) with
        | error e =>
          rw [branchHistoryLoop, if_neg hnf, hgi, hge] at h
          simp at h
        | ok excSel =>
          cases hpp : processPage getDiff incSel excSel acc
              ((history.drop skip).take 20) with
          | error e =>
            rw [branchHistoryLoop_error rx getDiff history inc exc skip acc e
              incSel excSel hnf hgi hge hpp] at h
            cases h
          | ok s =>
            cases s with
            | inl r =>
              rw [branchHistoryLoop_inl rx getDiff history inc exc skip acc r
                incSel excSel hnf hgi hge hpp] at h
              cases h
              exact processPage_inl_length getDiff incSel excSel _ _ _ hpp
            | inr acc' =>
              by_cases hemp : (history.drop skip).take 20 = []
              · rw [branchHistoryLoop_inr_empty rx getDiff history inc exc skip
                  acc acc' incSel excSel hnf hgi hge hpp hemp] at h
                cases h
                rw [trimSlice, List.length_take]
                exact min_le_left _ _
              · rw [branchHistoryLoop_inr_step rx getDiff history inc exc skip
                  acc acc' incSel excSel hnf hgi hge hpp hemp] at h
                have hlt : skip < history.length := by
                  by_contra hge'
                  push_neg at hge'
                  rw [List.drop_eq_nil_of_le hge'] at hemp
                  exact hemp rfl
                exact ihf (skip + 20) acc' res (by omega) h

theorem processPage_no_match (incSel excSel : List PathSelector) :
    ∀ page, processPage (fun _ => Except.ok []) incSel excSel [] page
      = Except.ok (Sum.inr []) := by
  intro page
  induction page with
  | nil => rfl
  | cons meta rest ih => exact ih

theorem branchHistoryLoop_no_match
    (rx : String → Option (String → Bool)) (history : List CommitMetadata)
    (pats : List String) (incSel : List PathSelector)
    (hinc : getPathSelectors rx pats = Except.ok incSel) :
    ∀ (fuel skip : Nat), history.length - skip ≤ fuel →
      branchHistoryLoop rx (fun _ => Except.ok []) history (some pats) none skip []
        = Except.ok [] := by
  intro fuel
  induction fuel with
  | zero =>
    intro skip hf
    have hemp : (history.drop skip).take 20 = [] := by
      rw [List.drop_eq_nil_of_le (by omega)]
      rfl
    rw [branchHistoryLoop_inr_empty rx _ history (some pats) none skip [] []
      incSel [] (by simp) hinc rfl (processPage_no_match incSel [] _) hemp]
    rfl
  | succ n ihf =>
    intro skip hf
    by_cases hemp : (history.drop skip).take 20 = []
    · rw [branchHistoryLoop_inr_empty rx _ history (some pats) none skip [] []
        incSel [] (by simp) hinc rfl (processPage_no_match incSel [] _) hemp]
      rfl
    · rw [branchHistoryLoop_inr_step rx _ history (some pats) none skip [] []
        incSel [] (by simp) hinc rfl (processPage_no_match incSel [] _) hemp]
      have hlt : skip < history.length := by
        by_contra hge'
        push_neg at hge'
        rw [List.drop_eq_nil_of_le hge'] at hemp
        exact hemp rfl
      exact ihf (skip + 20) (by omega)

theorem processPage_all_match :
    ∀ (page acc : List CommitMetadata), acc.length < 20 →
      processPage (fun _ => Except.ok ["a"]) [globSelector ("*")] [] acc page
        = (if 20 ≤ acc.length + page.length
           then Except.ok (Sum.inl ((acc ++ page).take 20))
           else Except.ok (Sum.inr (acc ++ page))) := by
  intro page
  induction page with
  | nil =>
    intro acc hacc
    rw [processPage, if_neg (by simp only [List.length_nil]; omega)]
    simp
  | cons meta rest ih =>
    intro acc hacc
    rw [processPage]
    have hm : matchesPathsFilters [globSelector ("*")] [] ["a"]
        = Except.ok true := rfl
    simp only [hm, if_true]
    by_cases hfull : 20 ≤ acc.length + 1
    · have h19 : acc.length = 19 := by omega
      rw [if_pos (by simp only [List.length_append, List.length_singleton]; omega)]
      rw [if_pos (by simp only [List.length_cons]; omega)]
      have hL : (acc ++ [meta]).take 20 = acc ++ [meta] := by
        apply List.take_of_length_le
        simp only [List.length_append, List.length_singleton]
        omega
      have hR : (acc ++ meta :: rest).take 20 = acc ++ [meta] := by
        rw [List.take_append_eq_append_take]
        rw [List.take_of_length_le (by omega)]
        congr 1
        rw [h19]
        rfl
      rw [trimSlice, hL, hR]
    · rw [if_neg (by simp only [List.length_append, List.length_singleton]; omega)]
      rw [ih (acc ++ [meta])
        (by simp only [List.length_append, List.length_singleton]; omega)]
      have hl : (acc ++ [meta]) ++ rest = acc ++ meta :: rest := by simp
      rw [hl]
      exact if_congr
        (by simp only [List.length_append, List.length_singleton, List.length_cons,
              List.length_nil]
            omega)
        rfl rfl

theorem branchHistoryLoop_all_match
    (rx : String → Option (String → Bool)) (history : List CommitMetadata) :
    ∀ (fuel skip : Nat) (acc : List CommitMetadata),
      history.length - skip ≤ fuel → acc.length < 20 →
      branchHistoryLoop rx (fun _ => Except.ok ["a"]) history
          (some ["glob:*"]) none skip acc
        = Except.ok ((acc ++ history.drop skip).take 20) := by
  intro fuel
  induction fuel with
  | zero =>
    intro skip acc hf hacc
    have hdrop : history.drop skip = [] := List.drop_eq_nil_of_le (by omega)
    have hemp : (history.drop skip).take 20 = [] := by rw [hdrop]; rfl
    have hpp : processPage (fun _ => Except.ok ["a"]) [globSelector ("*")] []
        acc ((history.drop skip).take 20) = Except.ok (Sum.inr acc) := by
      rw [hemp]
      rfl
    rw [branchHistoryLoop_inr_empty rx _ history (some ["glob:*"]) none skip
      acc acc [globSelector ("*")] [] (by simp) rfl rfl hpp hemp]
    rw [hdrop, List.append_nil, trimSlice]
  | succ n ihf =>
    intro skip acc hf hacc
    by_cases hemp : (history.drop skip).take 20 = []
    · have hdrop : history.drop skip = [] := by
        cases hd : history.drop skip with
        | nil => rfl
        | cons x xs =>
          rw [hd] at hemp
          simp at hemp
      have hpp : processPage (fun _ => Except.ok ["a"]) [globSelector ("*")] []
          acc ((history.drop skip).take 20) = Except.ok (Sum.inr acc) := by
        rw [hemp]
        rfl
      rw [branchHistoryLoop_inr_empty rx _ history (some ["glob:*"]) none skip
        acc acc [globSelector ("*")] [] (by simp) rfl rfl hpp hemp]
      rw [hdrop, List.append_nil, trimSlice]
    · have hpage := processPage_all_match ((history.drop skip).take 20) acc hacc
      by_cases hfull : 20 ≤ acc.length + ((history.drop skip).take 20).length
      · rw [if_pos hfull] at hpage
        rw [branchHistoryLoop_inl rx _ history (some ["glob:*"]) none skip acc _
          [globSelector ("*")] [] (by simp) rfl rfl hpage]
        congr 1
        rw [List.take_append_eq_append_take, List.take_append_eq_append_take,
          List.take_take]
        congr 2
        omega
      · rw [if_neg hfull] at hpage
        rw [branchHistoryLoop_inr_step rx _ history (some ["glob:*"]) none skip
          acc _ [globSelector ("*")] [] (by simp) rfl rfl hpage hemp]
        have hlt : skip < history.length := by
          by_contra hge'
          push_neg at hge'
          rw [List.drop_eq_nil_of_le hge'] at hemp
          exact hemp rfl
        rw [ihf (skip + 20) (acc ++ (history.drop skip).take 20) (by omega)
          (by rw [List.length_append]; omega)]
        congr 1
        rw [List.append_assoc]
        congr 1
        have hdd : history.drop (skip + 20) = (history.drop skip).drop 20 := by
          rw [List.drop_drop]
        rw [hdd, List.take_append_drop]

/-- C8: For every branch and path-filter configuration (over the
honest paginated view of a finite history), `discoverBranchHistory`
returns at most 20 commits (conjunct 2); with no path filters
configured it returns the very first requested page — the first 20
commits (conjunct 1); with a path filter that matches nothing (here: a
configured include filter evaluated against commits whose diff-path
lists are all empty) it exhausts all pages and returns the accumulated
empty result — fewer than 20 — without error (conjunct 3); and with a
filter every commit satisfies it appends qualifying commits in source
order and returns exactly the first 20 as soon as 20 have accumulated
(conjunct 4). -/
theorem discoverBranchHistory_spec
    (rx : String → Option (String → Bool))
    (getDiff : String → Except String (List String))
    (history : List CommitMetadata)
    (includePaths excludePaths : Option (List String)) :
    discoverBranchHistory rx getDiff history none none
      = Except.ok (history.take 20)
    ∧ (∀ res, discoverBranchHistory rx getDiff history includePaths excludePaths
        = Except.ok res → res.length ≤ 20)
    ∧ discoverBranchHistory rx (fun _ => Except.ok []) history
        (some ["glob:*.go"]) none = Except.ok []
    ∧ discoverBranchHistory rx (fun _ => Except.ok ["a"]) history
        (some ["glob:*"]) none = Except.ok (history.take 20) := by
  refine ⟨?_, ?_, ?_, ?_⟩
  · rw [discoverBranchHistory, branchHistoryLoop_nofilter, List.drop_zero]
  · intro res h
    exact branchHistoryLoop_ok_length rx getDiff history includePaths
      excludePaths history.length 0 [] res (by omega) h
  · exact branchHistoryLoop_no_match rx history ["glob:*.go"]
      [globSelector ("*.go")] rfl history.length 0 (by omega)
  · rw [discoverBranchHistory,
      branchHistoryLoop_all_match rx history history.length 0 [] (by omega)
        (by simp)]
    rw [List.drop_zero, List.nil_append]

theorem discoverBranchHistory_spec_witness :
    discoverBranchHistory (fun _ => none) (fun _ => Except.ok [])
      [⟨"c1", "s", "a", "c", 1⟩] (some ["glob:*.go"]) none = Except.ok []
    ∧ ([] : List CommitMetadata).length ≤ 20 := by
  have h := discoverBranchHistory_spec (fun _ => none) (fun _ => Except.ok [])
    [⟨"c1", "s", "a", "c", 1⟩] (some ["glob:*.go"]) none
  exact ⟨h.2.2.1, h.2.1 [] h.2.2.1⟩

/-! ### Theorems for claim C2 -/

instance : IsTotal (TagMetadata × SemVer) svBefore :=
  ⟨fun a b => le_total (svTagKey b) (svTagKey a)⟩

instance : IsTrans (TagMetadata × SemVer) svBefore :=
  ⟨fun _ _ _ h1 h2 => le_trans h2 h1⟩

theorem svFilter_map_fst (oc : Option SvConstraints) :
    ∀ tags : List TagMetadata,
      (tags.filterMap (svFilter oc)).map Prod.fst = semverSurvivors tags oc := by
  intro tags
  induction tags with
  | nil => rfl
  | cons meta rest ih =>
    rw [List.filterMap_cons, semverSurvivors, List.filter_cons]
    cases hf : svFilter oc meta with
    | none =>
      simp only [Option.isSome_none, Bool.false_eq_true, if_false]
      rw [ih, semverSurvivors]
    | some p =>
      have hfst : p.1 = meta := by
        rw [svFilter] at hf
        cases hv : semverNewVersion meta.tag with
        | none =>
          simp only [hv] at hf
          cases hf
        | some sv =>
          simp only [hv] at hf
          by_cases hc : svKeep oc sv = true
          · rw [if_pos hc] at hf
            cases hf
            rfl
          · rw [if_neg hc] at hf
            cases hf
      simp only [Option.isSome_some, if_true]
      rw [List.map_cons, hfst, ih, semverSurvivors]

theorem mem_filterMap_svFilter (oc : Option SvConstraints)
    (tags : List TagMetadata) (p : TagMetadata × SemVer)
    (h : p ∈ tags.filterMap (svFilter oc)) :
    semverNewVersion p.1.tag = some p.2 := by
  rw [List.mem_filterMap] at h
  obtain ⟨meta, _, hf⟩ := h
  rw [svFilter] at hf
  cases hv : semverNewVersion meta.tag with
  | none =>
    simp only [hv] at hf
    cases hf
  | some sv =>
    simp only [hv] at hf
    by_cases hc : svKeep oc sv = true
    · rw [if_pos hc] at hf
      cases hf
      exact hv
    · rw [if_neg hc] at hf
      cases hf

theorem selectSemVerTags_result_props (oc : Option SvConstraints)
    (tags : List TagMetadata) :
    (((tags.filterMap (svFilter oc)).insertionSort svBefore).map
        Prod.fst).Perm (semverSurvivors tags oc)
    ∧ (((tags.filterMap (svFilter oc)).insertionSort svBefore).map
        Prod.fst).Pairwise semverTagOrder := by
  constructor
  · have hperm :=
      (List.perm_insertionSort svBefore (tags.filterMap (svFilter oc))).map Prod.fst
    rw [svFilter_map_fst] at hperm
    exact hperm
  · have hsorted :
        ((tags.filterMap (svFilter oc)).insertionSort svBefore).Pairwise svBefore :=
      List.sorted_insertionSort svBefore _
    rw [List.pairwise_map]
    apply hsorted.imp_of_mem
    intro a b ha hb hab
    have hpa : semverNewVersion a.1.tag = some a.2 :=
      mem_filterMap_svFilter oc tags a ((List.mem_insertionSort _).mp ha)
    have hpb : semverNewVersion b.1.tag = some b.2 :=
      mem_filterMap_svFilter oc tags b ((List.mem_insertionSort _).mp hb)
    refine ⟨a.2, b.2, hpa, hpb, ?_⟩
    have hle : svTagKey b ≤ svTagKey a := hab
    rw [svTagKey, svTagKey, Prod.Lex.le_iff] at hle
    exact hle

/-- C2: For every tag metadata list and constraint string, SemVer
selection silently discards tags that do not parse as semantic
versions and keeps only versions satisfying the constraint — with an
empty constraint string all parsed tags are kept (conjunct 1; a valid
non-empty constraint filters by it, conjunct 2) — and sorts the
survivors in descending semver precedence, breaking equal-precedence
ties by comparing the original tag strings in descending lexical order
(the `Perm`/`Pairwise` parts of conjuncts 1 and 2); a non-empty
invalid constraint string is a fatal error (conjunct 3).  For the
input tags `["1.0", "1.0.0", "1.1.0", "bad-tag"]` with no constraint,
the output order is `["1.1.0", "1.0.0", "1.0"]` (conjunct 4). -/
theorem selectSemVerTags_spec (tags : List TagMetadata) (constraint : String) :
    (constraint.data = [] →
      ∃ res, selectSemVerTags tags constraint = Except.ok res
        ∧ res.Perm (semverSurvivors tags none)
        ∧ res.Pairwise semverTagOrder)
    ∧ (∀ c, constraint.data ≠ [] → semverNewConstraint constraint = some c →
      ∃ res, selectSemVerTags tags constraint = Except.ok res
        ∧ res.Perm (semverSurvivors tags (some c))
        ∧ res.Pairwise semverTagOrder)
    ∧ (constraint.data ≠ [] → semverNewConstraint constraint = none →
      ∃ e, selectSemVerTags tags constraint = Except.error e)
    ∧ selectSemVerTags
        [⟨"1.0", "c1", "", "", "", 0⟩, ⟨"1.0.0", "c2", "", "", "", 0⟩,
         ⟨"1.1.0", "c3", "", "", "", 0⟩, ⟨"bad-tag", "c4", "", "", "", 0⟩] ""
      = Except.ok [⟨"1.1.0", "c3", "", "", "", 0⟩, ⟨"1.0.0", "c2", "", "", "", 0⟩,
         ⟨"1.0", "c1", "", "", "", 0⟩] := by
  refine ⟨?_, ?_, ?_, rfl⟩
  · intro hemp
    have hprops := selectSemVerTags_result_props none tags
    refine ⟨_, ?_, hprops.1, hprops.2⟩
    rw [selectSemVerTags, if_pos hemp]
  · intro c hne hsome
    have hprops := selectSemVerTags_result_props (some c) tags
    refine ⟨_, ?_, hprops.1, hprops.2⟩
    rw [selectSemVerTags, if_neg hne, hsome]
  · intro hne hnone
    refine ⟨("error parsing semver constraint " ++ constraint), ?_⟩
    rw [selectSemVerTags, if_neg hne, hnone]

theorem selectSemVerTags_spec_witness :
    ∃ e, selectSemVerTags [] "###" = Except.error e :=
  (selectSemVerTags_spec [] "###").2.2.1 (by decide) rfl

/-! ### Theorems for claims C4, C6, C9 -/

theorem collectImages_error_of_exists
    (fetch : String → Except String (Option Image)) (sched : List String)
    (hex : ∃ t ∈ sched, ∃ e, fetch t = Except.error e) :
    ∃ e, collectImages fetch sched = Except.error e := by
  induction sched with
  | nil => simp at hex
  | cons t rest ih =>
    cases hft : fetch t with
    | error e => exact ⟨e, by rw [collectImages, hft]⟩
    | ok oi =>
      have hrest : ∃ u ∈ rest, ∃ e, fetch u = Except.error e := by
        obtain ⟨u, hu, e, he⟩ := hex
        rcases List.mem_cons.mp hu with rfl | hm
        · rw [hft] at he
          exact absurd he (by simp)
        · exact ⟨u, hm, e, he⟩
      obtain ⟨e, he⟩ := ih hrest
      cases oi with
      | none => exact ⟨e, by rw [collectImages, hft, he]⟩
      | some img => exact ⟨e, by rw [collectImages, hft, he]⟩

theorem collectImages_first_error
    (fetch : String → Except String (Option Image))
    (pre : List String) (t : String) (post : List String) (e : String)
    (hpre : ∀ u ∈ pre, ∀ e0, fetch u ≠ Except.error e0)
    (hft : fetch t = Except.error e) :
    collectImages fetch (pre ++ t :: post) = Except.error e := by
  induction pre with
  | nil => rw [List.nil_append, collectImages, hft]
  | cons u pre2 ih =>
    have hu : ∀ e0, fetch u ≠ Except.error e0 :=
      hpre u (List.mem_cons_self u pre2)
    have hpre2 : ∀ v ∈ pre2, ∀ e0, fetch v ≠ Except.error e0 := by
      intro v hv e0
      exact hpre v (List.mem_cons_of_mem u hv) e0
    have htail := ih hpre2
    cases hfu : fetch u with
    | error e0 => exact absurd hfu (hu e0)
    | ok oi =>
      cases oi with
      | none => rw [List.cons_append, collectImages, hfu, htail]
      | some img => rw [List.cons_append, collectImages, hfu, htail]

/-- C4 counterexample: the claim as stated — "only the first-reported
error is surfaced while any subsequent errors are silently dropped" —
fails on the program.  For keys `["A", "B", "C"]` where only the fetch
for "B" fails (with "boom"), the schedule in which B's goroutine
reports its error and cancels the batch context before the spawn
loop's semaphore acquisition for "C" is valid (`ScheduleValid` holds),
and on it the call surfaces the wrapped acquisition error of lines
183-189, not the first-reported fetch error "boom": the fetch error
sitting in the one-slot error channel is dropped. -/
theorem getImagesByTags_acquire_counterexample :
    ScheduleValid witnessFetch ["A", "B", "C"] (some 2) []
    ∧ witnessFetch "B" = Except.error ("boom")
    ∧ getImagesByTags witnessFetch ["A", "B", "C"] (some 2) []
        = Except.error
          ("error acquiring semaphore for retrieval of image with tag C: context canceled")
    ∧ getImagesByTags witnessFetch ["A", "B", "C"] (some 2) []
        ≠ Except.error ("boom") := by
  refine ⟨⟨by decide, 1, "B", "boom", by decide, rfl, rfl⟩, rfl, rfl, ?_⟩
  intro h
  rw [show getImagesByTags witnessFetch ["A", "B", "C"] (some 2) []
      = Except.error
        ("error acquiring semaphore for retrieval of image with tag C: context canceled")
    from rfl] at h
  injection h with h2
  exact absurd h2 (by decide)

/-- C4 (amended): For every key set given to the bounded concurrent
fetch and every valid schedule, if at least one per-key fetch fails
then the call returns a single error and no partial value list
(conjunct 2: the `Except.error` result carries no values); without an
interruption of the spawn loop, the surfaced error is the
first-reported fetch error and subsequent fetch errors are silently
dropped (conjunct 3: whatever error `t` reports, if no goroutine
before `t` in the completion order failed then exactly `t`'s error is
returned, regardless of later failures); when the fail-fast
cancellation raised by an earlier fetch error interrupts the spawn
loop, the wrapped semaphore-acquisition error for the next key is
surfaced instead, and even the first-reported fetch error is dropped
(conjunct 4); if the key set is empty, it returns an empty result with
no error (conjunct 1). -/
theorem getImagesByTags_spec
    (fetch : String → Except String (Option Image)) (tags : List String)
    (interruptedAt : Option Nat) (sched : List String)
    (hvalid : ScheduleValid fetch tags interruptedAt sched) :
    (tags = [] → getImagesByTags fetch tags interruptedAt sched = Except.ok [])
    ∧ ((∃ t ∈ tags, ∃ e, fetch t = Except.error e) →
        ∃ e, getImagesByTags fetch tags interruptedAt sched = Except.error e)
    ∧ (interruptedAt = none →
        ∀ pre t post e, sched = pre ++ t :: post →
          (∀ u ∈ pre, ∀ e0, fetch u ≠ Except.error e0) →
          fetch t = Except.error e →
          getImagesByTags fetch tags interruptedAt sched = Except.error e)
    ∧ (∀ k, interruptedAt = some k →
        ∃ tag, tags.get? k = some tag ∧
          getImagesByTags fetch tags interruptedAt sched
            = Except.error
              ("error acquiring semaphore for retrieval of image with tag "
                ++ tag ++ ": context canceled")) := by
  refine ⟨?_, ?_, ?_, ?_⟩
  · intro htags
    subst htags
    cases hi : interruptedAt with
    | some k =>
      rw [hi, ScheduleValid] at hvalid
      simp at hvalid
    | none =>
      rw [hi, ScheduleValid] at hvalid
      rw [getImagesByTags, hvalid.eq_nil]
      rfl
  · intro hex
    cases hi : interruptedAt with
    | some k =>
      exact ⟨_, by rw [getImagesByTags]⟩
    | none =>
      rw [hi, ScheduleValid] at hvalid
      have hex2 : ∃ t ∈ sched, ∃ e, fetch t = Except.error e := by
        obtain ⟨t, ht, e, he⟩ := hex
        exact ⟨t, hvalid.mem_iff.mpr ht, e, he⟩
      obtain ⟨e, he⟩ := collectImages_error_of_exists fetch sched hex2
      exact ⟨e, by rw [getImagesByTags, he]⟩
  · intro hnone pre t post e hsched hpre hft
    subst hnone
    subst hsched
    rw [getImagesByTags]
    exact collectImages_first_error fetch pre t post e hpre hft
  · intro k hk
    subst hk
    rw [ScheduleValid] at hvalid
    obtain ⟨hklt, -⟩ := hvalid
    refine ⟨tags.get ⟨k, hklt⟩, (List.get?_eq_get hklt).symm ▸ rfl, ?_⟩
    rw [getImagesByTags, List.getD_eq_getD_get?, List.get?_eq_get hklt]
    rfl

theorem getImagesByTags_spec_witness :
    getImagesByTags witnessFetch ["A", "B", "C"] none ["A", "B", "C"]
      = Except.error ("boom") :=
  (getImagesByTags_spec witnessFetch ["A", "B", "C"] none ["A", "B", "C"]
      (List.Perm.refl _)).2.2.1 rfl
    ["A"] "B" ["C"] "boom" rfl
    (by
      intro u hu e0
      rw [List.mem_singleton] at hu
      subst hu
      simp [witnessFetch])
    (by simp [witnessFetch])

/-- C6: For every image list with all creation timestamps present,
`sortImagesByDate` orders it by a strict total order: the result is a
permutation of the input, and whenever `a` appears anywhere before `b`
in the result, either `a`'s creation timestamp is strictly later, or
the timestamps are equal and `a`'s tag is lexically at least `b`'s
(so for two images with different timestamps the later sorts first,
and for equal timestamps the lexically greater tag sorts first). -/
theorem sortImagesByDate_sorted (l : List Image)
    (h : ∀ i ∈ l, i.createdAt.isSome) :
    (sortImagesByDate l).Perm l
    ∧ (sortImagesByDate l).Pairwise (fun a b =>
        ∃ ta tb, a.createdAt = some ta ∧ b.createdAt = some tb ∧
          (tb < ta ∨ (tb = ta ∧ b.tag.data ≤ a.tag.data))) := by
  constructor
  · exact List.perm_insertionSort imagePrecedes l
  · have hs : (sortImagesByDate l).Pairwise imagePrecedes :=
      List.sorted_insertionSort imagePrecedes l
    apply hs.imp_of_mem
    intro a b ha hb hab
    have ha' : a.createdAt.isSome := h a ((List.mem_insertionSort _).mp ha)
    have hb' : b.createdAt.isSome := h b ((List.mem_insertionSort _).mp hb)
    obtain ⟨ta, hta⟩ := Option.isSome_iff_exists.mp ha'
    obtain ⟨tb, htb⟩ := Option.isSome_iff_exists.mp hb'
    refine ⟨ta, tb, hta, htb, ?_⟩
    have hle := (imagePrecedes_iff_le a b).mp hab
    rw [imageKey, imageKey, Prod.Lex.le_iff] at hle
    have hia : imageTime a = ta := by rw [imageTime, hta]; rfl
    have hib : imageTime b = tb := by rw [imageTime, htb]; rfl
    rcases hle with hlt | ⟨heq, hle2⟩
    · left
      rw [hia, hib] at hlt
      exact hlt
    · right
      rw [hia, hib] at heq
      exact ⟨heq, hle2⟩

theorem sortImagesByDate_sorted_witness :
    (sortImagesByDate
        [⟨"a", "d1", some 3, none⟩, ⟨"b", "d2", some 7, none⟩]).Perm
        [⟨"a", "d1", some 3, none⟩, ⟨"b", "d2", some 7, none⟩]
    ∧ (sortImagesByDate
        [⟨"a", "d1", some 3, none⟩, ⟨"b", "d2", some 7, none⟩]).Pairwise
        (fun a b => ∃ ta tb, a.createdAt = some ta ∧ b.createdAt = some tb ∧
          (tb < ta ∨ (tb = ta ∧ b.tag.data ≤ a.tag.data))) :=
  sortImagesByDate_sorted
    [⟨"a", "d1", some 3, none⟩, ⟨"b", "d2", some 7, none⟩]
    (by intro i hi; fin_cases hi <;> rfl)

/-- C9: the `sortImagesByDate` comparison closure unconditionally
dereferences each image's `CreatedAt` pointer, so the comparison is
defined (the model returns `some`) exactly when both images carry a
present timestamp; an absent `CreatedAt` on either side makes the
comparison undefined (`none`, modelling the nil-pointer panic), even
though the `Image` data model allows timestamp-or-absent.  When both
timestamps are present, the Go comparison agrees with the total
comparator `imageLess` used by `sortImagesByDate`. -/
theorem imageLessGo_defined_iff (a b : Image) :
    ((imageLessGo a b).isSome ↔ (a.createdAt.isSome ∧ b.createdAt.isSome))
    ∧ (∀ ta tb, a.createdAt = some ta → b.createdAt = some tb →
        imageLessGo a b = some (imageLess a b)) := by
  constructor
  · cases ha : a.createdAt with
    | none => simp [imageLessGo, ha]
    | some ta =>
      cases hb : b.createdAt with
      | none => simp [imageLessGo, ha, hb]
      | some tb => simp [imageLessGo, ha, hb]
  · intro ta tb hta htb
    have hia : imageTime a = ta := by rw [imageTime, hta]; rfl
    have hib : imageTime b = tb := by rw [imageTime, htb]; rfl
    rw [imageLessGo, hta, htb, imageLess, hia, hib]

theorem imageLessGo_defined_iff_witness :
    imageLessGo ⟨"a", "d1", some 3, none⟩ ⟨"b", "d2", some 3, none⟩
      = some (imageLess ⟨"a", "d1", some 3, none⟩ ⟨"b", "d2", some 3, none⟩) :=
  (imageLessGo_defined_iff ⟨"a", "d1", some 3, none⟩ ⟨"b", "d2", some 3, none⟩).2
    3 3 rfl rfl

end Kargo
